import Mathlib

/-
Verification of the xv6-lab buffer cache (kernel/bio.c): a shallow embedding
of the cache's data state and of the operations binit, bget, bread, bwrite,
brelse, bpin and bunpin, together with theorems about lookup, the eviction
scan, relabeling, release, initialization and the live-key uniqueness
invariant.

Modeling conventions:
- each bucket's intrusive circular list is a Lean `List Nat` of buffer ids in
  head->next order (front of the list = most-recently-used end);
- `struct buf` is a record of the fields the cache logic reads and writes;
  spinlocks and the per-buffer sleeplock are concurrency primitives and are
  not part of the data state (operations are modeled as atomic state
  transformers, i.e. the sequential/serialized behavior of the code);
- C `uint` arithmetic on `refcnt` wraps modulo 2^32;
- `panic` is modeled as `Except.error`;
- the disk is a map from (device, block number) to opaque block content.
-/

namespace Bio

/-- One cache slot: the fields of `struct buf` that the cache logic reads or
writes; `data` models the block content as an opaque value. -/
structure Buf where
  dev : Nat
  blockno : Nat
  valid : Bool
  refcnt : Nat
  ticks : Nat
  data : Nat
  deriving Repr, DecidableEq

/-- The all-zero buffer record: C global data is zero-initialized. -/
def buf0 : Buf := { dev := 0, blockno := 0, valid := false, refcnt := 0, ticks := 0, data := 0 }

/-- Modulus of the C `uint` type. -/
def u32 : Nat := 4294967296

/-- Wrapping increment of a C `uint`. -/
def incU32 (n : Nat) : Nat := (n + 1) % u32

/-- Wrapping decrement of a C `uint`. -/
def decU32 (n : Nat) : Nat := (n + (u32 - 1)) % u32

/-- The buffer-cache state: `buckets` holds each hash bucket's intrusive list
in head->next order (front of the Lean list = most-recently-used end),
`heads` models the sentinel `struct buf` node of each bucket (the array
`bcache.buffers`, whose non-link fields are never written by the code), and
`bufs` is the `bcache.buf` array indexed by buffer id. `nbuckets` is the
compile-time constant BUFFERS_BUCKETS. -/
structure BCache where
  nbuckets : Nat
  buckets : List (List Nat)
  heads : List Buf
  bufs : List Buf
  deriving Repr, DecidableEq

/-- C `get_index`: the bucket index for (dev, blockno). -/
def get_index (nbuckets dev blockno : Nat) : Nat := (dev + blockno) % nbuckets

/-- C `insert`: link a buffer right after the bucket head, i.e. at the
most-recently-used end (head.next is most recent). -/
def insert (head : List Nat) (b : Nat) : List Nat := b :: head

/-- Whether buffer record `x` carries the identity (dev, blockno). -/
def keyMatch (x : Buf) (dev blockno : Nat) : Bool := x.dev == dev && x.blockno == blockno

/-- C `get_buffer_for_block`: scan a bucket from head->next toward the tail
and return the first buffer id whose identity matches (dev, blockno). -/
def get_buffer_for_block (bufs : List Buf) (bucket : List Nat) (dev blockno : Nat) :
    Option Nat :=
  bucket.find? (fun i => keyMatch (bufs.getD i buf0) dev blockno)

/-- C `get_least_recently_used_buffer_with_no_ref`: scan a bucket from
head->prev (the least-recently-used end) toward head->next and return the
first buffer id with `refcnt == 0`. -/
def get_least_recently_used_buffer_with_no_ref (bufs : List Buf) (bucket : List Nat) :
    Option Nat :=
  bucket.reverse.find? (fun i => (bufs.getD i buf0).refcnt == 0)

/-- C `evit`: unlink a buffer from the doubly linked list containing it. On
bucket lists without duplicated ids this is erasing the id from every bucket
(it occurs in at most one of them). -/
def evit (buckets : List (List Nat)) (b : Nat) : List (List Nat) :=
  buckets.map (fun l => l.erase b)

/-- One iteration of the eviction scan in `bget`: bucket `i` is searched for
its least-recently-used zero-refcount buffer; the candidate is adopted when
there is no current best, or when its ticks are strictly below
`bcache.buffers[least_index].ticks` - which is the ticks field of bucket
`least_index`'s sentinel head node, exactly as the C source writes it, not
the ticks of the current best buffer. -/
def evictScanStep (s : BCache) (acc : Option (Nat × Nat)) (i : Nat) : Option (Nat × Nat) :=
  match get_least_recently_used_buffer_with_no_ref s.bufs (s.buckets.getD i []) with
  | none => acc
  | some b =>
    match acc with
    | none => some (i, b)
    | some (li, lb) =>
      if (s.bufs.getD b buf0).ticks < (s.heads.getD li buf0).ticks then some (i, b)
      else some (li, lb)

/-- The global eviction scan of `bget`: fold `evictScanStep` over all bucket
indices in ascending order, starting from no candidate; the result is
`(least_index, least_recently_used_buf)`. -/
def evictScan (s : BCache) : Option (Nat × Nat) :=
  (List.range s.nbuckets).foldl (evictScanStep s) none

/-- C `bget`: look (dev, blockno) up in its hash bucket; on a hit increment
the refcount and return the buffer id; on a miss run the global eviction
scan, and either panic (`Except.error`) when it yields no candidate, or
relabel the winner (requested identity, `valid = 0`, `refcnt = 1`), unlink it
(`evit`) and insert it at the most-recently-used end of the target bucket. -/
def bget (s : BCache) (dev blockno : Nat) : Except String (BCache × Nat) :=
  let index := get_index s.nbuckets dev blockno
  match get_buffer_for_block s.bufs (s.buckets.getD index []) dev blockno with
  | some b =>
    let x := s.bufs.getD b buf0
    .ok ({ s with bufs := s.bufs.set b { x with refcnt := incU32 x.refcnt } }, b)
  | none =>
    match evictScan s with
    | none => .error "bget: no buffers"
    | some (_li, b) =>
      let x := s.bufs.getD b buf0
      let bufs := s.bufs.set b
        { x with dev := dev, blockno := blockno, valid := false, refcnt := 1 }
      let buckets := evit s.buckets b
      let buckets2 := buckets.set index (insert (buckets.getD index []) b)
      .ok ({ s with bufs := bufs, buckets := buckets2 }, b)

/-- The per-bucket result of `binit`'s two insertion loops: bucket `i`
receives ids `i*q + j` for `j < q` (with `q = NBUF / BUFFERS_BUCKETS`),
inserted one after the other at the most-recently-used end, and, when
`i < NBUF % BUFFERS_BUCKETS`, additionally the id `nbuckets*q + i` from the
second loop. -/
def binitBucket (nbuf nbuckets i : Nat) : List Nat :=
  let q := nbuf / nbuckets
  let base := (List.range q).foldl (fun l j => insert l (i * q + j)) []
  if i < nbuf % nbuckets then insert base (nbuckets * q + i) else base

/-- C `binit`: every bucket starts as a circular-empty sentinel (the empty
list) and is filled by `binitBucket`; all buffer records start all-zero
(zero-initialized C globals - `binit` itself writes only links and locks), so
in particular `valid = false` and no disk content has been read. -/
def binit (nbuf nbuckets : Nat) : BCache :=
  { nbuckets := nbuckets
  , buckets := (List.range nbuckets).map (binitBucket nbuf nbuckets)
  , heads := List.replicate nbuckets buf0
  , bufs := List.replicate nbuf buf0 }

/-- C `brelse` (data part; the sleeplock hand-off and the `holdingsleep`
panic are lock protocol, not data state): decrement the refcount; exactly
when it reaches zero, unlink the buffer from its current list position,
reinsert it at the most-recently-used end of bucket
`get_index(dev, blockno)`, and stamp `ticks` with the current tick value
`tcks` (the global timer is external input). -/
def brelse (s : BCache) (tcks b : Nat) : BCache :=
  let x := s.bufs.getD b buf0
  let index := get_index s.nbuckets x.dev x.blockno
  let r := decU32 x.refcnt
  if r = 0 then
    let bufs := s.bufs.set b { x with refcnt := r, ticks := tcks }
    let buckets := evit s.buckets b
    let buckets2 := buckets.set index (insert (buckets.getD index []) b)
    { s with bufs := bufs, buckets := buckets2 }
  else
    { s with bufs := s.bufs.set b { x with refcnt := r } }

/-- C `bpin`: increment the refcount (under the coarse bcache lock). -/
def bpin (s : BCache) (b : Nat) : BCache :=
  let x := s.bufs.getD b buf0
  { s with bufs := s.bufs.set b { x with refcnt := incU32 x.refcnt } }

/-- C `bunpin`: decrement the unsigned refcount, with no lower-bound check,
under the coarse bcache lock. -/
def bunpin (s : BCache) (b : Nat) : BCache :=
  let x := s.bufs.getD b buf0
  { s with bufs := s.bufs.set b { x with refcnt := decU32 x.refcnt } }

/-- The cache together with the disk, modeled as a map from (device, block
number) to opaque block content; `virtio_disk_rw` reads or writes this map. -/
structure Sys where
  cache : BCache
  disk : Nat → Nat → Nat

/-- C `bread`: `bget`, then, when the returned buffer is invalid, issue one
device read (`virtio_disk_rw(b, 0)`) into its content and set `valid`.
Returns the buffer id together with the number of device transfers issued
(0 or 1). -/
def bread (sys : Sys) (dev blockno : Nat) : Except String (Sys × Nat × Nat) :=
  match bget sys.cache dev blockno with
  | .error e => .error e
  | .ok (c, b) =>
    let x := c.bufs.getD b buf0
    if x.valid then .ok ({ sys with cache := c }, b, 0)
    else
      let x2 := { x with data := sys.disk x.dev x.blockno, valid := true }
      .ok ({ cache := { c with bufs := c.bufs.set b x2 }, disk := sys.disk }, b, 1)

/-- C `bwrite` (data part; the `holdingsleep` check is lock protocol): write
the buffer's content to disk at its identity (`virtio_disk_rw(b, 1)`);
refcount and bucket position are untouched. -/
def bwrite (sys : Sys) (b : Nat) : Sys :=
  let x := sys.cache.bufs.getD b buf0
  { sys with disk := fun d n => if d = x.dev ∧ n = x.blockno then x.data else sys.disk d n }

/-- The operations claim C2 quantifies over (`acquireBlock`/`readBlock`,
`writeBlock`, `release`) as a step relation on `Sys`. A `brelse` step carries
the documented precondition that the caller holds the buffer, hence its
refcount is positive (the code panics otherwise via `holdingsleep`); the
tick value passed to `brelse` is arbitrary external input. -/
inductive Step : Sys → Sys → Prop where
  | bget_step (sys : Sys) (dev blockno : Nat) (c : BCache) (b : Nat) :
      bget sys.cache dev blockno = .ok (c, b) → Step sys { sys with cache := c }
  | bread_step (sys : Sys) (dev blockno : Nat) (sys2 : Sys) (b n : Nat) :
      bread sys dev blockno = .ok (sys2, b, n) → Step sys sys2
  | bwrite_step (sys : Sys) (b : Nat) : Step sys (bwrite sys b)
  | brelse_step (sys : Sys) (tcks b : Nat) :
      0 < (sys.cache.bufs.getD b buf0).refcnt →
      Step sys { sys with cache := brelse sys.cache tcks b }

/-- The pool state right after `binit`, with an arbitrary initial disk. -/
def initSys (nbuf nbuckets : Nat) (d : Nat → Nat → Nat) : Sys :=
  { cache := binit nbuf nbuckets, disk := d }

/-- States reachable from `s` by a sequence of API operations. -/
def Reaches (s s2 : Sys) : Prop := Relation.ReflTransGen Step s s2

/-- The bucket index that buffer `i`'s current identity hashes to. -/
def hashOf (s : BCache) (i : Nat) : Nat :=
  get_index s.nbuckets (s.bufs.getD i buf0).dev (s.bufs.getD i buf0).blockno

/-- Buffer `i` is the first buffer its own identity's hash bucket yields when
searched by `get_buffer_for_block`. -/
def FirstMatch (s : BCache) (i : Nat) : Prop :=
  get_buffer_for_block s.bufs (s.buckets.getD (hashOf s i) [])
    (s.bufs.getD i buf0).dev (s.bufs.getD i buf0).blockno = some i

/-- The inductive invariant for the uniqueness claim: the bucket table has
the right shape, every id linked into a bucket is a real buffer index, and
every buffer with a positive refcount is the first match for its own
identity in that identity's hash bucket. -/
def Inv (s : BCache) : Prop :=
  s.buckets.length = s.nbuckets
  ∧ 0 < s.nbuckets
  ∧ (∀ l ∈ s.buckets, ∀ id ∈ l, id < s.bufs.length)
  ∧ (∀ i, 0 < (s.bufs.getD i buf0).refcnt → FirstMatch s i)

/-- A concrete disk image (every block holds 7), used to instantiate
theorems with hypotheses at concrete states. -/
def disk0 : Nat → Nat → Nat := fun _ _ => 7

/-- A two-bucket pool in which buffer 0 (bucket 0) has recency stamp 5 and
buffer 1 (bucket 1) has the globally smallest recency stamp 3; both have
refcount 0, so both are eviction candidates. -/
def exC1 : BCache :=
  { nbuckets := 2
  , buckets := [[0], [1]]
  , heads := [buf0, buf0]
  , bufs := [{ buf0 with ticks := 5 }, { buf0 with blockno := 1, ticks := 3 }] }

/-- A one-bucket pool whose single buffer is held (refcount 1), so no
eviction candidate exists. -/
def exC7 : BCache :=
  { nbuckets := 1
  , buckets := [[0]]
  , heads := [buf0]
  , bufs := [{ buf0 with refcnt := 1 }] }

/-- A one-bucket pool whose single buffer is held (refcount 1) and carries
content 42 under identity (0, 0). -/
def exC8 : BCache :=
  { nbuckets := 1
  , buckets := [[0]]
  , heads := [buf0]
  , bufs := [{ buf0 with refcnt := 1, data := 42 }] }

/-- The state reached from `initSys 2 1 disk0` by one `bget 0 0` hit on
buffer 1. -/
def sysAfterHit : Sys :=
  { cache :=
    { nbuckets := 1
    , buckets := [[1, 0]]
    , heads := [buf0]
    , bufs := [buf0, { buf0 with refcnt := 1 }] }
  , disk := disk0 }

/-- Auxiliary: `List.getD` after `List.set` at the written position. -/
theorem getD_set_self {α : Type} (l : List α) (i : Nat) (v d : α) (h : i < l.length) :
    (l.set i v).getD i d = v := by
  simp [List.getD_eq_getElem?_getD, List.getElem?_set_self, h]

/-- Auxiliary: `List.getD` after `List.set` at another position. -/
theorem getD_set_ne {α : Type} (l : List α) (i j : Nat) (v d : α) (h : i ≠ j) :
    (l.set i v).getD j d = l.getD j d := by
  simp [List.getD_eq_getElem?_getD, List.getElem?_set_ne h]

/-- Auxiliary: a first match of `p` is still the first match of a predicate
`q` that agrees with `p` everywhere except at a position `e` where `q`
fails. -/
theorem find?_some_of_agree {p q : Nat → Bool} {e : Nat} {l : List Nat} {a : Nat}
    (hpq : ∀ x, x ≠ e → p x = q x) (hqe : q e = false) (hae : a ≠ e)
    (hl : l.find? p = some a) : l.find? q = some a := by
  induction l with
  | nil => simp at hl
  | cons x xs ih =>
    rw [List.find?_cons] at hl ⊢
    cases hpx : p x with
    | true =>
      rw [hpx] at hl
      have hxa : x = a := by injection hl
      subst hxa
      have hxe : x ≠ e := hae
      rw [← hpq x hxe, hpx]
    | false =>
      rw [hpx] at hl
      by_cases hxe : x = e
      · subst hxe
        rw [hqe]
        exact ih hl
      · rw [← hpq x hxe, hpx]
        exact ih hl

/-- Auxiliary: a first match of `p` survives erasing an element at which `p`
fails. -/
theorem find?_some_erase {p : Nat → Bool} {e : Nat} {l : List Nat} {a : Nat}
    (hpe : p e = false) (hl : l.find? p = some a) : (l.erase e).find? p = some a := by
  induction l with
  | nil => simp at hl
  | cons x xs ih =>
    rw [List.find?_cons] at hl
    by_cases hxe : x = e
    · subst hxe
      rw [hpe] at hl
      rw [List.erase_cons_head]
      exact hl
    · have herase : (x :: xs).erase e = x :: xs.erase e := by
        rw [List.erase_cons_tail]
        simp [hxe]
      rw [herase, List.find?_cons]
      cases hpx : p x with
      | true => rw [hpx] at hl; exact hl
      | false => rw [hpx] at hl; exact ih hl

/-- Auxiliary: `evit` acts on each bucket by erasing the unlinked id. -/
theorem evit_getD (buckets : List (List Nat)) (b i : Nat) :
    (evit buckets b).getD i [] = (buckets.getD i []).erase b := by
  unfold evit
  by_cases h : i < buckets.length
  · simp [List.getD_eq_getElem?_getD, List.getElem?_map, List.getElem?_eq_getElem h]
  · have h1 : buckets[i]? = none := List.getElem?_eq_none (Nat.le_of_not_lt h)
    have h2 : (buckets.map (fun l => l.erase b))[i]? = none := by
      apply List.getElem?_eq_none
      simpa using Nat.le_of_not_lt h
    simp [List.getD_eq_getElem?_getD, h1, h2]

/-- Auxiliary: searching for a key after overwriting one buffer record with a
record carrying the same identity finds the same first match. -/
theorem get_buffer_for_block_set_key_eq (bufs : List Buf) (b : Nat) (v : Buf)
    (hdev : v.dev = (bufs.getD b buf0).dev) (hbn : v.blockno = (bufs.getD b buf0).blockno)
    (bucket : List Nat) (dev blockno : Nat) :
    get_buffer_for_block (bufs.set b v) bucket dev blockno
      = get_buffer_for_block bufs bucket dev blockno := by
  unfold get_buffer_for_block
  congr 1
  funext i
  by_cases hib : i = b
  · subst hib
    by_cases hlt : i < bufs.length
    · rw [getD_set_self _ _ _ _ hlt]
      unfold keyMatch
      rw [hdev, hbn]
    · rw [List.set_eq_of_length_le (Nat.le_of_not_lt hlt)]
  · rw [getD_set_ne _ _ _ _ _ (fun h => hib h.symm)]

/-- Auxiliary: `evictScanStep` when the bucket yields no candidate. -/
theorem evictScanStep_none (s : BCache) (acc : Option (Nat × Nat)) (i : Nat)
    (hfind : get_least_recently_used_buffer_with_no_ref s.bufs (s.buckets.getD i []) = none) :
    evictScanStep s acc i = acc := by
  unfold evictScanStep
  rw [hfind]

/-- Auxiliary: `evictScanStep` adopts the first candidate found. -/
theorem evictScanStep_first (s : BCache) (i b : Nat)
    (hfind :
      get_least_recently_used_buffer_with_no_ref s.bufs (s.buckets.getD i []) = some b) :
    evictScanStep s none i = some (i, b) := by
  unfold evictScanStep
  rw [hfind]

/-- Auxiliary: `evictScanStep` with a current best compares the candidate's
ticks against the ticks of bucket `li`'s sentinel head. -/
theorem evictScanStep_compare (s : BCache) (i b li lb : Nat)
    (hfind :
      get_least_recently_used_buffer_with_no_ref s.bufs (s.buckets.getD i []) = some b) :
    evictScanStep s (some (li, lb)) i =
      if (s.bufs.getD b buf0).ticks < (s.heads.getD li buf0).ticks then some (i, b)
      else some (li, lb) := by
  unfold evictScanStep
  rw [hfind]

/-- Auxiliary: any property that holds of every per-bucket candidate holds of
the result of folding `evictScanStep`. -/
theorem foldl_evictScanStep_prop (s : BCache) (P : Nat × Nat → Prop)
    (hstep : ∀ i b,
      get_least_recently_used_buffer_with_no_ref s.bufs (s.buckets.getD i []) = some b →
      P (i, b)) :
    ∀ (l : List Nat) (acc : Option (Nat × Nat)), (∀ x, acc = some x → P x) →
      ∀ x, l.foldl (evictScanStep s) acc = some x → P x := by
  intro l
  induction l with
  | nil => intro acc hacc x hx; exact hacc x hx
  | cons i rest ih =>
    intro acc hacc x hx
    rw [List.foldl_cons] at hx
    refine ih _ ?_ x hx
    intro y hy
    cases hfind : get_least_recently_used_buffer_with_no_ref s.bufs (s.buckets.getD i [])
      with
    | none =>
      rw [evictScanStep_none s acc i hfind] at hy
      exact hacc y hy
    | some b =>
      cases acc with
      | none =>
        rw [evictScanStep_first s i b hfind] at hy
        have : (i, b) = y := by injection hy
        subst this
        exact hstep i b hfind
      | some p =>
        rcases p with ⟨li, lb⟩
        rw [evictScanStep_compare s i b li lb hfind] at hy
        by_cases hc : (s.bufs.getD b buf0).ticks < (s.heads.getD li buf0).ticks
        · rw [if_pos hc] at hy
          have : (i, b) = y := by injection hy
          subst this
          exact hstep i b hfind
        · rw [if_neg hc] at hy
          exact hacc y hy

/-- Auxiliary: the buffer returned by the eviction scan has refcount zero. -/
theorem evictScan_refcnt_zero (s : BCache) (li b : Nat)
    (h : evictScan s = some (li, b)) : (s.bufs.getD b buf0).refcnt = 0 := by
  have := foldl_evictScanStep_prop s (fun x => (s.bufs.getD x.2 buf0).refcnt = 0)
    (fun i c hfind => by
      have hp := List.find?_some hfind
      simpa using hp)
    (List.range s.nbuckets) none (by intro x hx; cases hx) (li, b) h
  exact this

/-- Auxiliary: the buffer returned by the eviction scan is linked into the
bucket it is reported from. -/
theorem evictScan_mem (s : BCache) (li b : Nat)
    (h : evictScan s = some (li, b)) : b ∈ s.buckets.getD li [] := by
  have := foldl_evictScanStep_prop s (fun x => x.2 ∈ s.buckets.getD x.1 [])
    (fun i c hfind => by
      have hp := List.mem_of_find?_eq_some hfind
      simpa using hp)
    (List.range s.nbuckets) none (by intro x hx; cases hx) (li, b) h
  exact this

/-- Auxiliary: each iteration of `binit`'s insertion loop adds exactly one
buffer to the bucket. -/
theorem foldl_insert_length (g : Nat → Nat) :
    ∀ (xs : List Nat) (init : List Nat),
      (xs.foldl (fun l j => insert l (g j)) init).length = init.length + xs.length := by
  intro xs
  induction xs with
  | nil => intro init; simp
  | cons x rest ih =>
    intro init
    rw [List.foldl_cons, ih]
    simp [insert]
    omega

/-- Auxiliary: the hit path of `bget` as an equation. -/
theorem bget_hit_eq (s : BCache) (dev blockno b : Nat)
    (hfind : get_buffer_for_block s.bufs
      (s.buckets.getD (get_index s.nbuckets dev blockno) []) dev blockno = some b) :
    bget s dev blockno = Except.ok
      ({ s with
          bufs :=
            s.bufs.set b
              { s.bufs.getD b buf0 with refcnt := incU32 (s.bufs.getD b buf0).refcnt } },
        b) := by
  simp only [bget, hfind]

/-- Auxiliary: the miss path of `bget` as an equation. -/
theorem bget_miss_eq (s : BCache) (dev blockno li b : Nat)
    (hmiss : get_buffer_for_block s.bufs
      (s.buckets.getD (get_index s.nbuckets dev blockno) []) dev blockno = none)
    (hscan : evictScan s = some (li, b)) :
    bget s dev blockno = Except.ok
      ({ s with
          bufs :=
            s.bufs.set b
              { s.bufs.getD b buf0 with
                  dev := dev, blockno := blockno, valid := false, refcnt := 1 },
          buckets :=
            (evit s.buckets b).set (get_index s.nbuckets dev blockno)
              (insert ((evit s.buckets b).getD (get_index s.nbuckets dev blockno) []) b) },
        b) := by
  simp only [bget, hmiss, hscan]

/-- Auxiliary: `bread` as an equation, given the result of its `bget`. -/
theorem bread_eq (sys : Sys) (dev blockno : Nat) (c : BCache) (b : Nat)
    (hbget : bget sys.cache dev blockno = Except.ok (c, b)) :
    bread sys dev blockno =
      if (c.bufs.getD b buf0).valid then Except.ok ({ sys with cache := c }, b, 0)
      else Except.ok
        ({ cache :=
            { c with
                bufs :=
                  c.bufs.set b
                    { c.bufs.getD b buf0 with
                        data :=
                          sys.disk (c.bufs.getD b buf0).dev (c.bufs.getD b buf0).blockno,
                        valid := true } },
           disk := sys.disk },
          b, 1) := by
  simp only [bread, hbget]

/-- Auxiliary: a `bread` of a key whose buffer is cached and valid returns
that buffer with zero device transfers and its cached content unchanged. -/
theorem bread_again (sys1 : Sys) (dev blockno b : Nat)
    (hfind : get_buffer_for_block sys1.cache.bufs
      (sys1.cache.buckets.getD (get_index sys1.cache.nbuckets dev blockno) []) dev blockno
        = some b)
    (hb : b < sys1.cache.bufs.length)
    (hvalid : (sys1.cache.bufs.getD b buf0).valid = true) :
    ∃ sys2, bread sys1 dev blockno = Except.ok (sys2, b, 0)
      ∧ (sys2.cache.bufs.getD b buf0).data = (sys1.cache.bufs.getD b buf0).data := by
  have hbget := bget_hit_eq sys1.cache dev blockno b hfind
  have hbread := bread_eq sys1 dev blockno _ b hbget
  rw [getD_set_self _ _ _ _ hb] at hbread
  rw [if_pos hvalid] at hbread
  refine ⟨_, hbread, ?_⟩
  rw [getD_set_self _ _ _ _ hb]

/-- Auxiliary: a `bread` of a key whose buffer is cached but invalid returns
that buffer with one device transfer, filling it from the disk. -/
theorem bread_fill (sys1 : Sys) (dev blockno b : Nat)
    (hfind : get_buffer_for_block sys1.cache.bufs
      (sys1.cache.buckets.getD (get_index sys1.cache.nbuckets dev blockno) []) dev blockno
        = some b)
    (hb : b < sys1.cache.bufs.length)
    (hvalid : (sys1.cache.bufs.getD b buf0).valid = false) :
    ∃ sys2, bread sys1 dev blockno = Except.ok (sys2, b, 1)
      ∧ (sys2.cache.bufs.getD b buf0).data
          = sys1.disk (sys1.cache.bufs.getD b buf0).dev
              (sys1.cache.bufs.getD b buf0).blockno := by
  have hbget := bget_hit_eq sys1.cache dev blockno b hfind
  have hbread := bread_eq sys1 dev blockno _ b hbget
  rw [getD_set_self _ _ _ _ hb] at hbread
  rw [if_neg (by rw [hvalid]; simp)] at hbread
  refine ⟨_, hbread, ?_⟩
  rw [List.set_set, getD_set_self _ _ _ _ hb]

/-- Auxiliary: a member of some bucket's list is a real buffer index, given
the bucket-ids bound of the invariant. -/
theorem mem_bucket_lt (s : BCache)
    (hids : ∀ l ∈ s.buckets, ∀ id ∈ l, id < s.bufs.length)
    (j id : Nat) (h : id ∈ s.buckets.getD j []) : id < s.bufs.length := by
  by_cases hj : j < s.buckets.length
  · have hgd : s.buckets.getD j [] = s.buckets[j] := by
      simp [List.getD_eq_getElem?_getD, List.getElem?_eq_getElem hj]
    exact hids _ (List.getElem_mem hj) id (hgd ▸ h)
  · exfalso
    have hnil : s.buckets.getD j [] = [] := by
      simp [List.getD_eq_getElem?_getD, List.getElem?_eq_none (Nat.le_of_not_lt hj)]
    rw [hnil] at h
    exact absurd h (List.not_mem_nil id)

/-- Auxiliary: unlinking a buffer everywhere and reinserting it into one
bucket keeps every linked id inside the buffer array. -/
theorem ids_relink (s : BCache) (b0 t : Nat)
    (hids : ∀ l ∈ s.buckets, ∀ id ∈ l, id < s.bufs.length)
    (hb0 : b0 < s.bufs.length) :
    ∀ l ∈ (evit s.buckets b0).set t (insert ((evit s.buckets b0).getD t []) b0),
      ∀ id ∈ l, id < s.bufs.length := by
  intro l hl id hid
  rcases List.mem_or_eq_of_mem_set hl with hl2 | rfl
  · obtain ⟨l0, hl0, rfl⟩ := List.mem_map.mp hl2
    exact hids l0 hl0 id (List.erase_subset _ _ hid)
  · simp only [insert, List.mem_cons] at hid
    rcases hid with rfl | hid2
    · exact hb0
    · rw [evit_getD] at hid2
      exact mem_bucket_lt s hids t id (List.erase_subset _ _ hid2)

/-- Auxiliary: a buffer found by `get_buffer_for_block` carries the searched
identity. -/
theorem get_buffer_for_block_key (bufs : List Buf) (bucket : List Nat)
    (dev blockno i : Nat)
    (h : get_buffer_for_block bufs bucket dev blockno = some i) :
    (bufs.getD i buf0).dev = dev ∧ (bufs.getD i buf0).blockno = blockno := by
  have hp := List.find?_some h
  simp only [keyMatch, Bool.and_eq_true, beq_iff_eq] at hp
  exact hp

/-- Auxiliary: prepending a failing element to a list from which it was
erased preserves a first match, across a predicate change that fails at that
element. -/
theorem find?_cons_erase_agree {p q : Nat → Bool} {e : Nat} {l : List Nat} {a : Nat}
    (hpq : ∀ x, x ≠ e → p x = q x) (hqe : q e = false) (hae : a ≠ e)
    (hl : l.find? p = some a) : (e :: l.erase e).find? q = some a := by
  have h2 := find?_some_erase hqe (find?_some_of_agree hpq hqe hae hl)
  rw [List.find?_cons, hqe]
  exact h2

/-- Auxiliary: overwriting one buffer record with a record of the same
identity (and any bucket-preserving state) preserves the first-match
property of every buffer. -/
theorem FirstMatch_of_key_preserved (s : BCache) (b0 : Nat) (v : Buf) (i : Nat)
    (hdev : v.dev = (s.bufs.getD b0 buf0).dev)
    (hbn : v.blockno = (s.bufs.getD b0 buf0).blockno)
    (hfm : FirstMatch s i) :
    FirstMatch { s with bufs := s.bufs.set b0 v } i := by
  unfold FirstMatch hashOf at hfm ⊢
  dsimp only
  by_cases hib : i = b0
  · subst hib
    by_cases hlt : i < s.bufs.length
    · rw [getD_set_self _ _ _ _ hlt]
      rw [hdev, hbn]
      rw [get_buffer_for_block_set_key_eq s.bufs i v hdev hbn]
      exact hfm
    · rw [List.set_eq_of_length_le (Nat.le_of_not_lt hlt)]
      exact hfm
  · rw [getD_set_ne _ _ _ _ _ (fun he => hib he.symm)]
    rw [get_buffer_for_block_set_key_eq s.bufs b0 v hdev hbn]
    exact hfm

/-- Auxiliary: a relabeled-and-relinked buffer becomes the first match of its
new identity in the bucket it is inserted into. -/
theorem FirstMatch_relink_self (s : BCache) (b0 t : Nat) (v : Buf)
    (hb0 : b0 < s.bufs.length)
    (ht : t < s.buckets.length)
    (hhash : get_index s.nbuckets v.dev v.blockno = t) :
    FirstMatch
      { s with
          bufs := s.bufs.set b0 v,
          buckets :=
            (evit s.buckets b0).set t (insert ((evit s.buckets b0).getD t []) b0) }
      b0 := by
  unfold FirstMatch hashOf
  dsimp only
  rw [getD_set_self _ _ _ _ hb0]
  rw [hhash]
  have hlt : t < (evit s.buckets b0).length := by
    simp only [evit, List.length_map]
    omega
  rw [getD_set_self _ _ _ _ hlt]
  simp only [insert, get_buffer_for_block, List.find?_cons]
  rw [getD_set_self _ _ _ _ hb0]
  simp [keyMatch]

/-- Auxiliary: relabeling and relinking a buffer whose new record does not
match another buffer's identity preserves that other buffer's first-match
property. -/
theorem FirstMatch_relink_other (s : BCache) (b0 t : Nat) (v : Buf) (i : Nat)
    (hib : i ≠ b0)
    (hb0 : b0 < s.bufs.length)
    (hkm : keyMatch v (s.bufs.getD i buf0).dev (s.bufs.getD i buf0).blockno = false)
    (hfmi : FirstMatch s i) :
    FirstMatch
      { s with
          bufs := s.bufs.set b0 v,
          buckets :=
            (evit s.buckets b0).set t (insert ((evit s.buckets b0).getD t []) b0) }
      i := by
  unfold FirstMatch hashOf at hfmi ⊢
  dsimp only
  rw [getD_set_ne _ _ _ _ _ (fun he => hib he.symm)]
  by_cases hh : get_index s.nbuckets (s.bufs.getD i buf0).dev
      (s.bufs.getD i buf0).blockno = t
  · rw [hh]
    rw [hh] at hfmi
    by_cases hlt : t < (evit s.buckets b0).length
    · rw [getD_set_self _ _ _ _ hlt, evit_getD]
      simp only [insert]
      unfold get_buffer_for_block at hfmi ⊢
      refine find?_cons_erase_agree ?_ ?_ hib hfmi
      · intro x hx
        rw [getD_set_ne _ _ _ _ _ (fun he => hx he.symm)]
      · dsimp only
        rw [getD_set_self _ _ _ _ hb0]
        exact hkm
    · exfalso
      have hnil : s.buckets.getD t [] = [] := by
        have : s.buckets.length ≤ t := by
          simp only [evit, List.length_map] at hlt
          omega
        simp [List.getD_eq_getElem?_getD, List.getElem?_eq_none this]
      rw [hnil] at hfmi
      simp [get_buffer_for_block] at hfmi
  · rw [getD_set_ne _ _ _ _ _ (fun he => hh he.symm)]
    rw [evit_getD]
    unfold get_buffer_for_block at hfmi ⊢
    refine find?_some_erase ?_ (find?_some_of_agree ?_ ?_ hib hfmi)
    · dsimp only
      rw [getD_set_self _ _ _ _ hb0]
      exact hkm
    · intro x hx
      rw [getD_set_ne _ _ _ _ _ (fun he => hx he.symm)]
    · dsimp only
      rw [getD_set_self _ _ _ _ hb0]
      exact hkm

/-- Auxiliary: the invariant forces at most one live buffer per identity. -/
theorem inv_unique (s : BCache) (hinv : Inv s) (i j : Nat)
    (hi : 0 < (s.bufs.getD i buf0).refcnt) (hj : 0 < (s.bufs.getD j buf0).refcnt)
    (hdev : (s.bufs.getD i buf0).dev = (s.bufs.getD j buf0).dev)
    (hbn : (s.bufs.getD i buf0).blockno = (s.bufs.getD j buf0).blockno) : i = j := by
  obtain ⟨-, -, -, hfm⟩ := hinv
  have h1 := hfm i hi
  have h2 := hfm j hj
  unfold FirstMatch hashOf at h1 h2
  rw [hdev, hbn] at h1
  rw [h1] at h2
  injection h2

/-- Auxiliary: `binit`'s insertion loop in closed form. -/
theorem foldl_insert_eq (g : Nat → Nat) :
    ∀ (xs : List Nat) (init : List Nat),
      xs.foldl (fun l j => insert l (g j)) init = (xs.map g).reverse ++ init := by
  intro xs
  induction xs with
  | nil => intro init; simp
  | cons x rest ih =>
    intro init
    rw [List.foldl_cons, ih]
    simp [insert, List.append_assoc]

/-- Auxiliary: every id `binit` links into bucket `i` is a real buffer
index. -/
theorem binitBucket_mem_lt (nbuf nbuckets i : Nat) (hi : i < nbuckets) :
    ∀ id ∈ binitBucket nbuf nbuckets i, id < nbuf := by
  intro id hid
  have hdm := Nat.div_add_mod nbuf nbuckets
  have hmul : (i + 1) * (nbuf / nbuckets) ≤ nbuckets * (nbuf / nbuckets) :=
    Nat.mul_le_mul_right _ hi
  have hexp : i * (nbuf / nbuckets) + nbuf / nbuckets = (i + 1) * (nbuf / nbuckets) := by
    ring
  simp only [binitBucket] at hid
  have hbase : ∀ x ∈ (List.range (nbuf / nbuckets)).foldl
      (fun l j => insert l (i * (nbuf / nbuckets) + j)) [], x < nbuf := by
    intro x hx
    rw [foldl_insert_eq (fun j => i * (nbuf / nbuckets) + j)] at hx
    simp only [List.append_nil, List.mem_reverse, List.mem_map, List.mem_range] at hx
    obtain ⟨j, hj, rfl⟩ := hx
    omega
  by_cases hr : i < nbuf % nbuckets
  · rw [if_pos hr] at hid
    simp only [insert, List.mem_cons] at hid
    rcases hid with rfl | hid2
    · omega
    · exact hbase id hid2
  · rw [if_neg hr] at hid
    exact hbase id hid

/-- Auxiliary: the pool produced by `binit` satisfies the invariant. -/
theorem inv_binit (nbuf nbuckets : Nat) (hpos : 0 < nbuckets) :
    Inv (binit nbuf nbuckets) := by
  refine ⟨by simp [binit], hpos, ?_, ?_⟩
  · intro l hl id hid
    simp only [binit] at hl
    obtain ⟨i, hi, rfl⟩ := List.mem_map.mp hl
    rw [List.mem_range] at hi
    have := binitBucket_mem_lt nbuf nbuckets i hi id hid
    simpa [binit] using this
  · intro i hi
    exfalso
    have hget : (List.replicate nbuf buf0).getD i buf0 = buf0 := by
      by_cases h : i < nbuf
      · simp [List.getD_eq_getElem?_getD, List.getElem?_replicate, h]
      · have hlen2 : (List.replicate nbuf buf0).length ≤ i := by
          simpa using Nat.le_of_not_lt h
        simp [List.getD_eq_getElem?_getD, List.getElem?_eq_none hlen2]
    have hi2 : 0 < buf0.refcnt := by
      rw [← hget]
      exact hi
    exact absurd hi2 (by decide)

/-- Auxiliary: a successful `bget` preserves the invariant. -/
theorem bget_inv (s : BCache) (dev blockno : Nat) (c : BCache) (b : Nat)
    (h : bget s dev blockno = Except.ok (c, b)) (hinv : Inv s) : Inv c := by
  obtain ⟨hlen, hpos, hids, hfm⟩ := hinv
  cases hfind : get_buffer_for_block s.bufs
      (s.buckets.getD (get_index s.nbuckets dev blockno) []) dev blockno with
  | some b0 =>
    rw [bget_hit_eq s dev blockno b0 hfind] at h
    injection h with h1
    injection h1 with hcc hbb
    subst hcc
    refine ⟨hlen, hpos, ?_, ?_⟩
    · simpa [List.length_set] using hids
    · intro i hi
      have hkey := get_buffer_for_block_key s.bufs _ dev blockno b0 hfind
      by_cases hib : i = b0
      · subst hib
        refine FirstMatch_of_key_preserved s i _ i rfl rfl ?_
        unfold FirstMatch hashOf
        rw [hkey.1, hkey.2]
        exact hfind
      · have hi' : 0 < (s.bufs.getD i buf0).refcnt := by
          rw [getD_set_ne _ _ _ _ _ (fun he => hib he.symm)] at hi
          exact hi
        exact FirstMatch_of_key_preserved s b0 _ i rfl rfl (hfm i hi')
  | none =>
    cases hscan : evictScan s with
    | none =>
      simp only [bget, hfind, hscan] at h
      exact Except.noConfusion h
    | some p =>
      rcases p with ⟨li, b0⟩
      rw [bget_miss_eq s dev blockno li b0 hfind hscan] at h
      injection h with h1
      injection h1 with hcc hbb
      subst hcc
      have hb0mem := evictScan_mem s li b0 hscan
      have hb0 : b0 < s.bufs.length := mem_bucket_lt s hids li b0 hb0mem
      have hidx : get_index s.nbuckets dev blockno < s.buckets.length := by
        rw [hlen]
        exact Nat.mod_lt _ hpos
      refine ⟨?_, hpos, ?_, ?_⟩
      · simp [evit, List.length_set, List.length_map, hlen]
      · simpa [List.length_set] using
          ids_relink s b0 (get_index s.nbuckets dev blockno) hids hb0
      · intro i hi
        by_cases hib : i = b0
        · subst hib
          exact FirstMatch_relink_self s i (get_index s.nbuckets dev blockno) _ hb0 hidx
            rfl
        · have hi' : 0 < (s.bufs.getD i buf0).refcnt := by
            rw [getD_set_ne _ _ _ _ _ (fun he => hib he.symm)] at hi
            exact hi
          have hkne : ¬((s.bufs.getD i buf0).dev = dev
              ∧ (s.bufs.getD i buf0).blockno = blockno) := by
            rintro ⟨h1, h2⟩
            have hfmi := hfm i hi'
            unfold FirstMatch hashOf at hfmi
            rw [h1, h2, hfind] at hfmi
            cases hfmi
          have hkm : keyMatch
              { dev := dev, blockno := blockno, valid := false, refcnt := 1,
                ticks := (s.bufs.getD b0 buf0).ticks,
                data := (s.bufs.getD b0 buf0).data }
              (s.bufs.getD i buf0).dev (s.bufs.getD i buf0).blockno = false := by
            simp only [keyMatch]
            cases hd : dev == (s.bufs.getD i buf0).dev with
            | false => rfl
            | true =>
              cases hbd : blockno == (s.bufs.getD i buf0).blockno with
              | false => rfl
              | true =>
                exact absurd ⟨(eq_of_beq hd).symm,
                  (eq_of_beq hbd).symm⟩ hkne
          exact FirstMatch_relink_other s b0 _ _ i hib hb0 hkm (hfm i hi')

/-- Auxiliary: `brelse` on a held buffer preserves the invariant. -/
theorem brelse_inv (s : BCache) (tcks b : Nat)
    (href : 0 < (s.bufs.getD b buf0).refcnt) (hinv : Inv s) :
    Inv (brelse s tcks b) := by
  obtain ⟨hlen, hpos, hids, hfm⟩ := hinv
  have hb : b < s.bufs.length := by
    by_contra hc
    have hget : s.bufs.getD b buf0 = buf0 := by
      simp [List.getD_eq_getElem?_getD, List.getElem?_eq_none (Nat.le_of_not_lt hc)]
    rw [hget] at href
    exact absurd href (by decide)
  by_cases hr : decU32 (s.bufs.getD b buf0).refcnt = 0
  · simp only [brelse, if_pos hr]
    refine ⟨?_, hpos, ?_, ?_⟩
    · simp [evit, List.length_set, List.length_map, hlen]
    · simpa [List.length_set] using
        ids_relink s b
          (get_index s.nbuckets (s.bufs.getD b buf0).dev (s.bufs.getD b buf0).blockno)
          hids hb
    · intro i hi
      by_cases hib : i = b
      · subst hib
        exfalso
        rw [getD_set_self _ _ _ _ hb] at hi
        have hi2 : 0 < decU32 (s.bufs.getD i buf0).refcnt := hi
        rw [hr] at hi2
        exact absurd hi2 (by decide)
      · have hi' : 0 < (s.bufs.getD i buf0).refcnt := by
          rw [getD_set_ne _ _ _ _ _ (fun he => hib he.symm)] at hi
          exact hi
        have hkm : keyMatch
            { dev := (s.bufs.getD b buf0).dev, blockno := (s.bufs.getD b buf0).blockno,
              valid := (s.bufs.getD b buf0).valid,
              refcnt := decU32 (s.bufs.getD b buf0).refcnt,
              ticks := tcks, data := (s.bufs.getD b buf0).data }
            (s.bufs.getD i buf0).dev (s.bufs.getD i buf0).blockno = false := by
          simp only [keyMatch]
          cases hd : (s.bufs.getD b buf0).dev == (s.bufs.getD i buf0).dev with
          | false => rfl
          | true =>
            cases hbd : (s.bufs.getD b buf0).blockno == (s.bufs.getD i buf0).blockno with
            | false => rfl
            | true =>
              exact absurd (inv_unique s ⟨hlen, hpos, hids, hfm⟩ b i href hi'
                (eq_of_beq hd) (eq_of_beq hbd))
                (fun he => hib he.symm)
        exact FirstMatch_relink_other s b _ _ i hib hb hkm (hfm i hi')
  · simp only [brelse, if_neg hr]
    refine ⟨hlen, hpos, ?_, ?_⟩
    · simpa [List.length_set] using hids
    · intro i hi
      have hi' : 0 < (s.bufs.getD i buf0).refcnt := by
        by_cases hib : i = b
        · subst hib
          exact href
        · rw [getD_set_ne _ _ _ _ _ (fun he => hib he.symm)] at hi
          exact hi
      exact FirstMatch_of_key_preserved s b _ i rfl rfl (hfm i hi')

/-- Auxiliary: a successful `bread` preserves the invariant. -/
theorem bread_inv (sys : Sys) (dev blockno : Nat) (sys2 : Sys) (b n : Nat)
    (h : bread sys dev blockno = Except.ok (sys2, b, n)) (hinv : Inv sys.cache) :
    Inv sys2.cache := by
  cases hbg : bget sys.cache dev blockno with
  | error e =>
    simp only [bread, hbg] at h
    exact Except.noConfusion h
  | ok p =>
    rcases p with ⟨c, b0⟩
    have hcinv := bget_inv sys.cache dev blockno c b0 hbg hinv
    rw [bread_eq sys dev blockno c b0 hbg] at h
    by_cases hval : (c.bufs.getD b0 buf0).valid
    · rw [if_pos hval] at h
      injection h with h1
      injection h1 with hA hrest
      subst hA
      exact hcinv
    · rw [if_neg hval] at h
      injection h with h1
      injection h1 with hA hrest
      subst hA
      obtain ⟨hlen, hpos, hids, hfm⟩ := hcinv
      refine ⟨hlen, hpos, ?_, ?_⟩
      · simpa [List.length_set] using hids
      · intro i hi
        have hi' : 0 < (c.bufs.getD i buf0).refcnt := by
          by_cases hib : i = b0
          · subst hib
            by_cases hlt : i < c.bufs.length
            · rw [getD_set_self _ _ _ _ hlt] at hi
              exact hi
            · rw [List.set_eq_of_length_le (Nat.le_of_not_lt hlt)] at hi
              exact hi
          · rw [getD_set_ne _ _ _ _ _ (fun he => hib he.symm)] at hi
            exact hi
        exact FirstMatch_of_key_preserved c b0 _ i rfl rfl (hfm i hi')

/-- Auxiliary: every API step preserves the invariant. -/
theorem step_inv (sys sys2 : Sys) (h : Step sys sys2) (hinv : Inv sys.cache) :
    Inv sys2.cache := by
  cases h with
  | bget_step dev blockno c b hbg => exact bget_inv sys.cache dev blockno c b hbg hinv
  | bread_step dev blockno sysb bb nb hbr => exact bread_inv sys dev blockno sys2 bb nb hbr hinv
  | bwrite_step b => exact hinv
  | brelse_step tcks b href =>
    dsimp only
    exact brelse_inv sys.cache tcks b href hinv

/-- Auxiliary: the invariant holds in every reachable state. -/
theorem reaches_inv (sys sys2 : Sys) (h : Reaches sys sys2) (hinv : Inv sys.cache) :
    Inv sys2.cache := by
  unfold Reaches at h
  induction h with
  | refl => exact hinv
  | tail h1 h2 ih => exact step_inv _ _ h2 ih

/-- C2: after every sequence of `bget`/`bread`, `bwrite` and `brelse`
operations from the freshly initialized pool, at most one buffer holds a
given (device, blockno) identity with a positive refcount: two live buffers
with the same identity are the same buffer. -/
theorem live_key_unique (nbuf nbuckets : Nat) (hpos : 0 < nbuckets)
    (d : Nat → Nat → Nat) (sys : Sys) (h : Reaches (initSys nbuf nbuckets d) sys)
    (i j : Nat)
    (hi : 0 < (sys.cache.bufs.getD i buf0).refcnt)
    (hj : 0 < (sys.cache.bufs.getD j buf0).refcnt)
    (hdev : (sys.cache.bufs.getD i buf0).dev = (sys.cache.bufs.getD j buf0).dev)
    (hbn : (sys.cache.bufs.getD i buf0).blockno = (sys.cache.bufs.getD j buf0).blockno) :
    i = j :=
  inv_unique sys.cache (reaches_inv _ _ h (inv_binit nbuf nbuckets hpos)) i j hi hj
    hdev hbn

/-- Witness for `live_key_unique`: from a 2-buffer, 1-bucket pool, one
`bget (0, 0)` hit makes buffer 1 live; the theorem applies at the reached
state. -/
theorem live_key_unique_witness :
    0 < 1
    ∧ Reaches (initSys 2 1 disk0) sysAfterHit
    ∧ 0 < (sysAfterHit.cache.bufs.getD 1 buf0).refcnt
    ∧ (1 : Nat) = 1 := by
  have hbg : bget (initSys 2 1 disk0).cache 0 0 = Except.ok (sysAfterHit.cache, 1) := by
    rfl
  have hstep : Step (initSys 2 1 disk0) sysAfterHit :=
    Step.bget_step (initSys 2 1 disk0) 0 0 sysAfterHit.cache 1 hbg
  have hreach : Reaches (initSys 2 1 disk0) sysAfterHit :=
    Relation.ReflTransGen.single hstep
  exact ⟨by decide, hreach, by decide,
    live_key_unique 2 1 (by decide) disk0 sysAfterHit hreach 1 1 (by decide) (by decide)
      (by decide) (by decide)⟩

/-- C1 failing input: in `exC1` buffer 1 has the globally smallest recency
stamp (3 against 5) and refcount 0, yet the eviction scan selects buffer 0:
the scan compares a candidate's ticks against the ticks of the sentinel head
`bcache.buffers[least_index]` (which is never written, hence 0) instead of
the current best buffer's ticks, so a later candidate can never win; the
miss `bget (2, 2)` therefore relabels buffer 0, not the global LRU buffer. -/
theorem eviction_scan_not_global_lru :
    (exC1.bufs.getD 0 buf0).refcnt = 0
    ∧ (exC1.bufs.getD 1 buf0).refcnt = 0
    ∧ (exC1.bufs.getD 1 buf0).ticks < (exC1.bufs.getD 0 buf0).ticks
    ∧ evictScan exC1 = some (0, 0)
    ∧ ∃ c, bget exC1 2 2 = Except.ok (c, 0) := by
  exact ⟨by decide, by decide, by decide, by decide, ⟨_, rfl⟩⟩

/-- C3: a buffer with a positive refcount is never selected for relabeling by
the eviction scan of `bget`: whenever `evictScan` returns a candidate, that
candidate's refcount is zero, whatever its recency stamp. -/
theorem no_eviction_of_in_use_buffer (s : BCache) (li b : Nat)
    (h : evictScan s = some (li, b)) :
    (s.bufs.getD b buf0).refcnt = 0 ∧ ¬ 0 < (s.bufs.getD b buf0).refcnt := by
  have h0 := evictScan_refcnt_zero s li b h
  exact ⟨h0, by omega⟩

/-- Witness for `no_eviction_of_in_use_buffer` at the concrete pool `exC1`. -/
theorem no_eviction_of_in_use_buffer_witness :
    evictScan exC1 = some (0, 0) ∧ (exC1.bufs.getD 0 buf0).refcnt = 0 :=
  ⟨by decide, (no_eviction_of_in_use_buffer exC1 0 0 (by decide)).1⟩

/-- C7: when the lookup misses and the eviction scan over all buckets finds
no zero-refcount buffer, `bget` hits the fatal resource-exhaustion branch
(`panic("bget: no buffers")`, modeled as `Except.error`) rather than
returning a buffer or retrying. -/
theorem bget_panics_on_exhaustion (s : BCache) (dev blockno : Nat)
    (hmiss : get_buffer_for_block s.bufs
      (s.buckets.getD (get_index s.nbuckets dev blockno) []) dev blockno = none)
    (hscan : evictScan s = none) :
    bget s dev blockno = Except.error "bget: no buffers" := by
  simp only [bget, hmiss, hscan]

/-- Witness for `bget_panics_on_exhaustion`: in `exC7` the only buffer is
held, so a request for the absent block (0, 1) panics. -/
theorem bget_panics_on_exhaustion_witness :
    get_buffer_for_block exC7.bufs
        (exC7.buckets.getD (get_index exC7.nbuckets 0 1) []) 0 1 = none
    ∧ evictScan exC7 = none
    ∧ bget exC7 0 1 = Except.error "bget: no buffers" :=
  ⟨by decide, by decide, bget_panics_on_exhaustion exC7 0 1 (by decide) (by decide)⟩

/-- C9: `binit` gives every bucket `NBUF / BUFFERS_BUCKETS` buffers plus one
extra to each of the first `NBUF % BUFFERS_BUCKETS` buckets, so every bucket
receives at least the floor share; and every buffer starts all-zero, in
particular invalid and with no disk content read. -/
theorem binit_distribution (nbuf nbuckets i : Nat) (h : i < nbuckets) :
    ((binit nbuf nbuckets).buckets.getD i []).length
        = nbuf / nbuckets + (if i < nbuf % nbuckets then 1 else 0)
    ∧ nbuf / nbuckets ≤ ((binit nbuf nbuckets).buckets.getD i []).length
    ∧ ∀ x ∈ (binit nbuf nbuckets).bufs, x.valid = false ∧ x.refcnt = 0 ∧ x.data = 0 := by
  have hbucket : (binit nbuf nbuckets).buckets.getD i [] = binitBucket nbuf nbuckets i := by
    simp [binit, List.getD_eq_getElem?_getD, List.getElem?_map, List.getElem?_range, h]
  have hlen : (binitBucket nbuf nbuckets i).length
      = nbuf / nbuckets + (if i < nbuf % nbuckets then 1 else 0) := by
    simp only [binitBucket]
    have hins : ∀ (l : List Nat) (a : Nat), (insert l a).length = l.length + 1 :=
      fun l a => rfl
    by_cases hr : i < nbuf % nbuckets
    · rw [if_pos hr, if_pos hr]
      rw [hins, foldl_insert_length (fun j => i * (nbuf / nbuckets) + j)]
      simp
    · rw [if_neg hr, if_neg hr]
      rw [foldl_insert_length (fun j => i * (nbuf / nbuckets) + j)]
      simp
  refine ⟨hbucket ▸ hlen, ?_, ?_⟩
  · rw [hbucket, hlen]
    omega
  · intro x hx
    have hx0 : x = buf0 := List.eq_of_mem_replicate hx
    subst hx0
    exact ⟨rfl, rfl, rfl⟩

/-- Witness for `binit_distribution` with 5 buffers over 3 buckets: bucket 0
is one of the first `5 % 3 = 2` buckets, so it gets `5 / 3 + 1 = 2`
buffers. -/
theorem binit_distribution_witness :
    0 < 3
    ∧ (((binit 5 3).buckets.getD 0 []).length
        = 5 / 3 + (if 0 < 5 % 3 then 1 else 0)) :=
  ⟨by decide, (binit_distribution 5 3 0 (by decide)).1⟩

/-- C10: `bunpin` decrements the unsigned refcount with no lower-bound check,
so on a buffer with refcount 0 it wraps the refcount to 2^32 - 1; with that
refcount the buffer can no longer be returned by the eviction scan, which
only yields refcount-zero buffers. -/
theorem bunpin_wraps_at_zero (s : BCache) (b : Nat) (hb : b < s.bufs.length)
    (h : (s.bufs.getD b buf0).refcnt = 0) :
    ((bunpin s b).bufs.getD b buf0).refcnt = 4294967295
    ∧ ∀ li c, evictScan (bunpin s b) = some (li, c) → c ≠ b := by
  have hval : ((bunpin s b).bufs.getD b buf0).refcnt
      = decU32 (s.bufs.getD b buf0).refcnt := by
    simp only [bunpin]
    rw [getD_set_self _ _ _ _ hb]
  have hdec : decU32 (s.bufs.getD b buf0).refcnt = 4294967295 := by
    rw [h]
    decide
  constructor
  · rw [hval, hdec]
  · intro li c hscan hcb
    subst hcb
    have h0 := evictScan_refcnt_zero _ _ _ hscan
    rw [hval, hdec] at h0
    exact absurd h0 (by decide)

/-- Witness for `bunpin_wraps_at_zero` at buffer 0 of `exC1`. -/
theorem bunpin_wraps_at_zero_witness :
    0 < exC1.bufs.length
    ∧ (exC1.bufs.getD 0 buf0).refcnt = 0
    ∧ ((bunpin exC1 0).bufs.getD 0 buf0).refcnt = 4294967295 :=
  ⟨by decide, by decide, (bunpin_wraps_at_zero exC1 0 (by decide) (by decide)).1⟩

/-- C5: `brelse` decrements the refcount; exactly when the result is zero it
stamps the recency with the current tick and moves the buffer (unlink, then
reinsert) to the most-recently-used end of the bucket its identity hashes
to, leaving every other bucket with at most the removal of that buffer;
when the refcount stays positive, every bucket list and the recency stamp
are unchanged. -/
theorem brelse_spec (s : BCache) (tcks b : Nat) (hb : b < s.bufs.length)
    (hlen : s.buckets.length = s.nbuckets) (hpos : 0 < s.nbuckets) :
    ((brelse s tcks b).bufs.getD b buf0).refcnt = decU32 (s.bufs.getD b buf0).refcnt
    ∧ (decU32 (s.bufs.getD b buf0).refcnt = 0 →
        ((brelse s tcks b).bufs.getD b buf0).ticks = tcks
        ∧ (brelse s tcks b).buckets.getD (hashOf s b) []
            = b :: ((s.buckets.getD (hashOf s b) []).erase b)
        ∧ ∀ j, j ≠ hashOf s b →
            (brelse s tcks b).buckets.getD j [] = (s.buckets.getD j []).erase b)
    ∧ (decU32 (s.bufs.getD b buf0).refcnt ≠ 0 →
        (brelse s tcks b).buckets = s.buckets
        ∧ ((brelse s tcks b).bufs.getD b buf0).ticks = (s.bufs.getD b buf0).ticks) := by
  by_cases hr : decU32 (s.bufs.getD b buf0).refcnt = 0
  · have hidx : hashOf s b < (evit s.buckets b).length := by
      have : hashOf s b < s.nbuckets := Nat.mod_lt _ hpos
      simp only [evit, List.length_map]
      omega
    constructor
    · simp only [brelse, if_pos hr]
      rw [getD_set_self _ _ _ _ hb]
    constructor
    · intro _
      refine ⟨?_, ?_, ?_⟩
      · simp only [brelse, if_pos hr]
        rw [getD_set_self _ _ _ _ hb]
      · simp only [brelse, if_pos hr]
        rw [show get_index s.nbuckets (s.bufs.getD b buf0).dev (s.bufs.getD b buf0).blockno
              = hashOf s b from rfl]
        rw [getD_set_self _ _ _ _ hidx]
        rw [insert, evit_getD]
      · intro j hj
        simp only [brelse, if_pos hr]
        rw [show get_index s.nbuckets (s.bufs.getD b buf0).dev (s.bufs.getD b buf0).blockno
              = hashOf s b from rfl]
        rw [getD_set_ne _ _ _ _ _ (fun he => hj he.symm)]
        exact evit_getD s.buckets b j
    · intro hcontra
      exact absurd hr hcontra
  · refine ⟨?_, fun hz => absurd hz hr, fun _ => ⟨?_, ?_⟩⟩
    · simp only [brelse, if_neg hr]
      rw [getD_set_self _ _ _ _ hb]
    · simp only [brelse, if_neg hr]
    · simp only [brelse, if_neg hr]
      rw [getD_set_self _ _ _ _ hb]

/-- C4: on a miss with an available eviction candidate, `bget` relabels the
scan's winner to the requested identity with `valid = false` and
`refcnt = 1`, unlinks it from its previous bucket position, inserts it at
the most-recently-used end of the bucket the requested key hashes to, and
returns it. -/
theorem bget_miss_relabels (s : BCache) (dev blockno li b : Nat)
    (hmiss : get_buffer_for_block s.bufs
      (s.buckets.getD (get_index s.nbuckets dev blockno) []) dev blockno = none)
    (hscan : evictScan s = some (li, b))
    (hb : b < s.bufs.length)
    (hlen : s.buckets.length = s.nbuckets) (hpos : 0 < s.nbuckets) :
    ∃ c, bget s dev blockno = Except.ok (c, b)
      ∧ (c.bufs.getD b buf0).dev = dev
      ∧ (c.bufs.getD b buf0).blockno = blockno
      ∧ (c.bufs.getD b buf0).valid = false
      ∧ (c.bufs.getD b buf0).refcnt = 1
      ∧ c.buckets.getD (get_index s.nbuckets dev blockno) []
          = b :: ((s.buckets.getD (get_index s.nbuckets dev blockno) []).erase b)
      ∧ ∀ j, j ≠ get_index s.nbuckets dev blockno →
          c.buckets.getD j [] = (s.buckets.getD j []).erase b := by
  have hidx : get_index s.nbuckets dev blockno < (evit s.buckets b).length := by
    have : get_index s.nbuckets dev blockno < s.nbuckets := Nat.mod_lt _ hpos
    simp only [evit, List.length_map]
    omega
  refine ⟨_, bget_miss_eq s dev blockno li b hmiss hscan, ?_, ?_, ?_, ?_, ?_, ?_⟩
  · rw [getD_set_self _ _ _ _ hb]
  · rw [getD_set_self _ _ _ _ hb]
  · rw [getD_set_self _ _ _ _ hb]
  · rw [getD_set_self _ _ _ _ hb]
  · rw [getD_set_self _ _ _ _ hidx, insert, evit_getD]
  · intro j hj
    rw [getD_set_ne _ _ _ _ _ (fun he => hj he.symm), evit_getD]

/-- Witness for `bget_miss_relabels`: the miss `bget (2, 2)` on `exC1`
relabels buffer 0. -/
theorem bget_miss_relabels_witness :
    get_buffer_for_block exC1.bufs
        (exC1.buckets.getD (get_index exC1.nbuckets 2 2) []) 2 2 = none
    ∧ evictScan exC1 = some (0, 0)
    ∧ 0 < exC1.bufs.length
    ∧ ∃ c, bget exC1 2 2 = Except.ok (c, 0) ∧ (c.bufs.getD 0 buf0).refcnt = 1 := by
  refine ⟨by decide, by decide, by decide, ?_⟩
  obtain ⟨c, h1, _, _, _, h5, _⟩ :=
    bget_miss_relabels exC1 2 2 0 0 (by decide) (by decide) (by decide) (by decide)
      (by decide)
  exact ⟨c, h1, h5⟩

/-- C6: a freshly relabeled buffer comes out of `bget` with `valid = false`;
the first `bread` that returns it issues exactly one device transfer and
sets `valid = true`; a subsequent `bread` of the same still-cached key
returns the same buffer with zero further transfers. -/
theorem bread_validity_transition (sys : Sys) (dev blockno li b : Nat)
    (hmiss : get_buffer_for_block sys.cache.bufs
      (sys.cache.buckets.getD (get_index sys.cache.nbuckets dev blockno) []) dev blockno
        = none)
    (hscan : evictScan sys.cache = some (li, b))
    (hb : b < sys.cache.bufs.length)
    (hlen : sys.cache.buckets.length = sys.cache.nbuckets)
    (hpos : 0 < sys.cache.nbuckets) :
    ∃ c, bget sys.cache dev blockno = Except.ok (c, b)
      ∧ (c.bufs.getD b buf0).valid = false
      ∧ ∃ sys1, bread sys dev blockno = Except.ok (sys1, b, 1)
        ∧ (sys1.cache.bufs.getD b buf0).valid = true
        ∧ ∃ sys2, bread sys1 dev blockno = Except.ok (sys2, b, 0) := by
  have hidx : get_index sys.cache.nbuckets dev blockno < (evit sys.cache.buckets b).length := by
    have : get_index sys.cache.nbuckets dev blockno < sys.cache.nbuckets :=
      Nat.mod_lt _ hpos
    simp only [evit, List.length_map]
    omega
  have hbget := bget_miss_eq sys.cache dev blockno li b hmiss hscan
  refine ⟨_, hbget, ?_, ?_⟩
  · rw [getD_set_self _ _ _ _ hb]
  · have hbread := bread_eq sys dev blockno _ b hbget
    rw [getD_set_self _ _ _ _ hb] at hbread
    rw [if_neg (by simp)] at hbread
    refine ⟨_, hbread, ?_, ?_⟩
    · dsimp only
      rw [List.set_set, getD_set_self _ _ _ _ hb]
    · refine Exists.imp (fun sys2 h => h.1) (bread_again _ dev blockno b ?_ ?_ ?_)
      · dsimp only
        rw [getD_set_self _ _ _ _ hidx]
        simp only [insert, get_buffer_for_block, List.find?_cons]
        rw [List.set_set, getD_set_self _ _ _ _ hb]
        simp [keyMatch]
      · dsimp only
        simpa [List.length_set] using hb
      · dsimp only
        rw [List.set_set, getD_set_self _ _ _ _ hb]

/-- Witness for `bread_validity_transition`: reading the absent block (2, 2)
of `exC1` relabels buffer 0, transfers once, and a re-read transfers zero
times. -/
theorem bread_validity_transition_witness :
    get_buffer_for_block exC1.bufs
        (exC1.buckets.getD (get_index exC1.nbuckets 2 2) []) 2 2 = none
    ∧ evictScan exC1 = some (0, 0)
    ∧ ∃ sys1, bread { cache := exC1, disk := disk0 } 2 2 = Except.ok (sys1, 0, 1)
        ∧ ∃ sys2, bread sys1 2 2 = Except.ok (sys2, 0, 0) := by
  refine ⟨by decide, by decide, ?_⟩
  obtain ⟨c, _, _, sys1, h1, _, sys2, h2⟩ :=
    bread_validity_transition { cache := exC1, disk := disk0 } 2 2 0 0 (by decide)
      (by decide) (by decide) (by decide) (by decide)
  exact ⟨sys1, h1, sys2, h2⟩

/-- C8: `bwrite` on a held buffer, then `brelse`, then `bread` of the same
key returns content equal to what was written: the re-read either hits the
still-cached copy (zero transfers) or refills the buffer from the disk
image that the write produced - in both cases the content read back is the
written value. -/
theorem read_after_write_round_trip (s : BCache) (d : Nat → Nat → Nat)
    (tcks b dev blockno v : Nat)
    (hdev : (s.bufs.getD b buf0).dev = dev)
    (hbn : (s.bufs.getD b buf0).blockno = blockno)
    (hv : (s.bufs.getD b buf0).data = v)
    (hfm : get_buffer_for_block s.bufs
      (s.buckets.getD (get_index s.nbuckets dev blockno) []) dev blockno = some b)
    (hb : b < s.bufs.length)
    (hlen : s.buckets.length = s.nbuckets) (hpos : 0 < s.nbuckets) :
    ∃ sys3 n,
      bread { cache := brelse (bwrite { cache := s, disk := d } b).cache tcks b,
              disk := (bwrite { cache := s, disk := d } b).disk } dev blockno
        = Except.ok (sys3, b, n)
      ∧ (sys3.cache.bufs.getD b buf0).data = v := by
  have hidx2 : get_index s.nbuckets dev blockno < (evit s.buckets b).length := by
    have : get_index s.nbuckets dev blockno < s.nbuckets := Nat.mod_lt _ hpos
    simp only [evit, List.length_map]
    omega
  have hb2 : b < (brelse s tcks b).bufs.length := by
    by_cases hr : decU32 (s.bufs.getD b buf0).refcnt = 0
    · simp only [brelse, if_pos hr, List.length_set]
      exact hb
    · simp only [brelse, if_neg hr, List.length_set]
      exact hb
  have hpres : ((brelse s tcks b).bufs.getD b buf0).dev = (s.bufs.getD b buf0).dev
      ∧ ((brelse s tcks b).bufs.getD b buf0).blockno = (s.bufs.getD b buf0).blockno
      ∧ ((brelse s tcks b).bufs.getD b buf0).valid = (s.bufs.getD b buf0).valid
      ∧ ((brelse s tcks b).bufs.getD b buf0).data = (s.bufs.getD b buf0).data := by
    by_cases hr : decU32 (s.bufs.getD b buf0).refcnt = 0
    · simp only [brelse, if_pos hr]
      rw [getD_set_self _ _ _ _ hb]
      exact ⟨rfl, rfl, rfl, rfl⟩
    · simp only [brelse, if_neg hr]
      rw [getD_set_self _ _ _ _ hb]
      exact ⟨rfl, rfl, rfl, rfl⟩
  have hnb : (brelse s tcks b).nbuckets = s.nbuckets := by
    by_cases hr : decU32 (s.bufs.getD b buf0).refcnt = 0
    · simp only [brelse, if_pos hr]
    · simp only [brelse, if_neg hr]
  have hfind2 : get_buffer_for_block (brelse s tcks b).bufs
      ((brelse s tcks b).buckets.getD
        (get_index (brelse s tcks b).nbuckets dev blockno) []) dev blockno = some b := by
    rw [hnb]
    by_cases hr : decU32 (s.bufs.getD b buf0).refcnt = 0
    · simp only [brelse, if_pos hr]
      rw [show get_index s.nbuckets (s.bufs.getD b buf0).dev (s.bufs.getD b buf0).blockno
            = get_index s.nbuckets dev blockno by rw [hdev, hbn]]
      rw [getD_set_self _ _ _ _ hidx2]
      simp only [insert, get_buffer_for_block, List.find?_cons]
      rw [getD_set_self _ _ _ _ hb]
      have hdev2 := hdev
      have hbn2 := hbn
      simp only [List.getD_eq_getElem?_getD] at hdev2 hbn2
      simp [keyMatch, hdev2, hbn2]
    · simp only [brelse, if_neg hr]
      exact (get_buffer_for_block_set_key_eq s.bufs b
        { s.bufs.getD b buf0 with refcnt := decU32 (s.bufs.getD b buf0).refcnt }
        rfl rfl _ dev blockno).trans hfm
  have hdisk : (bwrite { cache := s, disk := d } b).disk dev blockno = v := by
    simp only [bwrite]
    rw [if_pos ⟨hdev.symm, hbn.symm⟩]
    exact hv
  cases hval : (s.bufs.getD b buf0).valid with
  | true =>
    obtain ⟨sys2, heq, hdata⟩ :=
      bread_again { cache := brelse s tcks b, disk := (bwrite { cache := s, disk := d } b).disk }
        dev blockno b hfind2 hb2 (by rw [hpres.2.2.1]; exact hval)
    refine ⟨sys2, 0, heq, ?_⟩
    exact hdata.trans (hpres.2.2.2.trans hv)
  | false =>
    obtain ⟨sys2, heq, hdata⟩ :=
      bread_fill { cache := brelse s tcks b, disk := (bwrite { cache := s, disk := d } b).disk }
        dev blockno b hfind2 hb2 (by rw [hpres.2.2.1]; exact hval)
    refine ⟨sys2, 1, heq, ?_⟩
    refine hdata.trans ?_
    rw [show ((brelse s tcks b).bufs.getD b buf0).dev = dev from hpres.1.trans hdev]
    rw [show ((brelse s tcks b).bufs.getD b buf0).blockno = blockno from hpres.2.1.trans hbn]
    exact hdisk

/-- Witness for `read_after_write_round_trip`: write-release-read of key
(0, 0) on `exC8` returns the written content 42. -/
theorem read_after_write_round_trip_witness :
    (exC8.bufs.getD 0 buf0).dev = 0
    ∧ (exC8.bufs.getD 0 buf0).blockno = 0
    ∧ (exC8.bufs.getD 0 buf0).data = 42
    ∧ ∃ sys3 n,
        bread { cache := brelse (bwrite { cache := exC8, disk := disk0 } 0).cache 3 0,
                disk := (bwrite { cache := exC8, disk := disk0 } 0).disk } 0 0
          = Except.ok (sys3, 0, n)
        ∧ (sys3.cache.bufs.getD 0 buf0).data = 42 :=
  ⟨by decide, by decide, by decide,
    read_after_write_round_trip exC8 disk0 3 0 0 0 42 (by decide) (by decide) (by decide)
      (by decide) (by decide) (by decide) (by decide)⟩

/-- Witness for `brelse_spec`: releasing the held buffer of `exC7` brings its
refcount from 1 to 0. -/
theorem brelse_spec_witness :
    0 < exC7.bufs.length
    ∧ exC7.buckets.length = exC7.nbuckets
    ∧ 0 < exC7.nbuckets
    ∧ ((brelse exC7 9 0).bufs.getD 0 buf0).refcnt
        = decU32 ((exC7.bufs.getD 0 buf0).refcnt) :=
  ⟨by decide, by decide, by decide, (brelse_spec exC7 9 0 (by decide) (by decide) (by decide)).1⟩

end Bio
